import Mathlib

/-!
# Verification of the Job Auto Apply backend core

Shallow embedding of the ingestion–normalization–scoring pipeline of
`main.py` (tokenizer, feed parser, URL-keyed upsert, lexical scorer,
apply-channel classifier), together with proofs of the specified
properties.

Python floats are modelled as exact rationals (`ℚ`); `round(x, 2)` is
modelled as round-half-to-even at two decimal places.  MongoDB
collections are modelled as lists of records in natural (insertion)
order, `find_one` as `List.find?`/`List.head?`, and document identity
as a `Nat` id.  The external HTTP client (`requests.get` plus
`raise_for_status`, which raises exactly for 4xx/5xx statuses) is
modelled as a function from the URL to a fetch outcome, and
`requests.utils.quote` as an opaque parameter.
-/

set_option autoImplicit false

namespace JobAutoApply

/-! ## Python string primitives -/

/-- Model of `str.lower` on one character: ASCII `A`–`Z` maps to `a`–`z`,
everything else is unchanged (only ASCII letters matter here: the
tokenizer's character class and all tag names are ASCII). -/
def pyLowerChar (c : Char) : Char :=
  if h : 65 ≤ c.toNat ∧ c.toNat ≤ 90 then
    Char.ofNatAux (c.toNat + 32) (Or.inl (by omega))
  else c

/-- Model of `str.lower`. -/
def pyLower (s : String) : String :=
  ⟨s.data.map pyLowerChar⟩

/-- Characters stripped by Python `str.strip()` (ASCII whitespace). -/
def isPySpace (c : Char) : Bool :=
  c = ' ' || c = '\t' || c = '\n' || c = '\r' || c = '\x0b' || c = '\x0c'

/-- Model of `str.strip()` on a character list. -/
def pyStripL (l : List Char) : List Char :=
  ((l.dropWhile isPySpace).reverse.dropWhile isPySpace).reverse

/-- Model of `str.strip()`. -/
def pyStrip (s : String) : String :=
  ⟨pyStripL s.data⟩

/-- Index of the first occurrence of `needle` in `hay` (model of
`str.find` / leftmost regex match position). -/
def idxOfSub (needle : List Char) : List Char → Option Nat
  | [] => if needle.isEmpty then some 0 else none
  | c :: t =>
    if needle.isPrefixOf (c :: t) then some 0
    else (idxOfSub needle t).map (· + 1)

/-- Model of `str.split(sep)` for a non-empty separator, fuelled to keep
the recursion structural (the fuel `l.length + 1` always suffices). -/
def pySplitAux (sep : List Char) : Nat → List Char → List (List Char)
  | 0, l => [l]
  | fuel + 1, l =>
    match idxOfSub sep l with
    | none => [l]
    | some i => l.take i :: pySplitAux sep fuel (l.drop (i + sep.length))

/-- Model of `str.split(sep)`. -/
def pySplit (sep l : List Char) : List (List Char) :=
  pySplitAux sep (l.length + 1) l

/-- Substring test, the model of Python's `pat in hay`. -/
def strContains (hay pat : String) : Bool :=
  (idxOfSub pat.data hay.data).isSome

/-! ## Tokenizer (`tokenize` in `main.py`)

`re.findall(r"[a-zA-Z0-9+#.]+", text.lower())` returns, in order, the
maximal runs of characters of the class `[a-zA-Z0-9+#.]` in the
lowercased text. -/

/-- The tokenizer's character class `[a-zA-Z0-9+#.]`. -/
def isTokChar (c : Char) : Bool :=
  decide (('a' ≤ c ∧ c ≤ 'z') ∨ ('A' ≤ c ∧ c ≤ 'Z') ∨ ('0' ≤ c ∧ c ≤ '9')
    ∨ c = '+' ∨ c = '#' ∨ c = '.')

/-- One-pass scanner collecting maximal runs of characters satisfying
`p`; `cur` holds the (reversed) run in progress.  This is the model of
`re.findall(r"(class)+", ·)`. -/
def tokenRunsAux (p : Char → Bool) : List Char → List Char → List (List Char)
  | cur, [] => if cur.isEmpty then [] else [cur.reverse]
  | cur, c :: cs =>
    if p c then tokenRunsAux p (c :: cur) cs
    else if cur.isEmpty then tokenRunsAux p [] cs
    else cur.reverse :: tokenRunsAux p [] cs

/-- `tokenize` from `main.py`.  A `None` argument is modelled as
`none`; `if not text: return []` covers both `None` and `""`. -/
def tokenize (text : Option String) : List String :=
  match text with
  | none => []
  | some s =>
    if s = "" then []
    else (tokenRunsAux isTokChar [] (pyLower s).data).map (fun cs => (⟨cs⟩ : String))

/-! ### Maximal-run decomposition, stated from the spec

`RunsSpec p l ts` says: `ts` is the in-order list of maximal runs of
`p`-characters of `l` — the input decomposes into alternating gaps
(characters failing `p`) and the listed runs (non-empty, all characters
satisfying `p`), and no run can be extended (each gap before a later
run is non-empty because the remainder after a run starts with a
non-`p` character). -/
inductive RunsSpec (p : Char → Bool) : List Char → List (List Char) → Prop
  | nil (gap : List Char) (hgap : ∀ c ∈ gap, p c = false) : RunsSpec p gap []
  | cons (gap t rest : List Char) (ts : List (List Char))
      (hgap : ∀ c ∈ gap, p c = false)
      (hne : t ≠ [])
      (ht : ∀ c ∈ t, p c = true)
      (hrest : ∀ c, rest.head? = some c → p c = false)
      (h : RunsSpec p rest ts) :
      RunsSpec p (gap ++ t ++ rest) (t :: ts)

section TokenRunsLemmas

variable (p : Char → Bool)

theorem length_dropWhile_le' (l : List Char) : (l.dropWhile p).length ≤ l.length := by
  induction l with
  | nil => simp
  | cons c cs ih =>
    rw [List.dropWhile_cons]
    by_cases h : p c = true
    · simp only [h, if_true]
      exact Nat.le_succ_of_le ih
    · simp [h]

theorem runsAux_extend (cur : List Char) (hne : cur ≠ []) (hcur : ∀ c ∈ cur, p c = true) :
    ∀ cs, tokenRunsAux p cur cs =
      (cur.reverse ++ cs.takeWhile p) :: tokenRunsAux p [] (cs.dropWhile p) := by
  intro cs
  induction cs generalizing cur with
  | nil =>
    simp [tokenRunsAux, List.isEmpty_iff, hne]
  | cons c cs ih =>
    by_cases h : p c
    · have hcur' : ∀ d ∈ c :: cur, p d = true := by
        intro d hd
        rcases List.mem_cons.mp hd with rfl | hd
        · exact h
        · exact hcur d hd
      simp only [tokenRunsAux, h, if_pos]
      rw [ih (c :: cur) (by simp) hcur']
      simp [List.takeWhile, List.dropWhile, h]
    · simp [tokenRunsAux, h, List.isEmpty_iff, hne, List.takeWhile, List.dropWhile]

theorem runsAux_cons_pos (c : Char) (cs : List Char) (h : p c = true) :
    tokenRunsAux p [] (c :: cs) =
      (c :: cs.takeWhile p) :: tokenRunsAux p [] (cs.dropWhile p) := by
  simp only [tokenRunsAux, h, if_pos]
  rw [runsAux_extend p [c] (by simp) (by simpa using h)]
  rfl

theorem runsAux_cons_neg (c : Char) (cs : List Char) (h : p c = false) :
    tokenRunsAux p [] (c :: cs) = tokenRunsAux p [] cs := by
  simp [tokenRunsAux, h]

theorem runsAux_gap (gap : List Char) (hgap : ∀ c ∈ gap, p c = false) :
    ∀ l, tokenRunsAux p [] (gap ++ l) = tokenRunsAux p [] l := by
  intro l
  induction gap with
  | nil => rfl
  | cons c g ih =>
    have hc : p c = false := hgap c (by simp)
    have hg : ∀ d ∈ g, p d = false := fun d hd => hgap d (List.mem_cons_of_mem c hd)
    rw [List.cons_append, runsAux_cons_neg p c _ hc, ih hg]

theorem runsAux_gap_nil (gap : List Char) (hgap : ∀ c ∈ gap, p c = false) :
    tokenRunsAux p [] gap = [] := by
  have := runsAux_gap p gap hgap []
  simpa using this

theorem takeWhile_all (t : List Char) (ht : ∀ c ∈ t, p c = true) :
    ∀ rest, (∀ c, rest.head? = some c → p c = false) →
      (t ++ rest).takeWhile p = t ∧ (t ++ rest).dropWhile p = rest := by
  intro rest hrest
  induction t with
  | nil =>
    cases rest with
    | nil => simp
    | cons d ds =>
      have : p d = false := hrest d rfl
      simp [List.takeWhile, List.dropWhile, this]
  | cons c t ih =>
    have hc : p c = true := ht c (by simp)
    have ht' : ∀ d ∈ t, p d = true := fun d hd => ht d (List.mem_cons_of_mem c hd)
    have := ih ht'
    simp [List.takeWhile, List.dropWhile, hc, this.1, this.2]

/-- A maximal-run decomposition of `l` is also one of `c :: l` when `c`
is not a run character. -/
theorem runsSpec_gap_cons (c : Char) (hc : p c = false) {l : List Char}
    {ts : List (List Char)} (h : RunsSpec p l ts) : RunsSpec p (c :: l) ts :=
  match h with
  | .nil gap hgap =>
    RunsSpec.nil (c :: gap) (by
      intro d hd
      rcases List.mem_cons.mp hd with rfl | hd
      · exact hc
      · exact hgap d hd)
  | .cons gap t rest ts hgap hne ht hrest hr =>
    RunsSpec.cons (c :: gap) t rest ts (by
      intro d hd
      rcases List.mem_cons.mp hd with rfl | hd
      · exact hc
      · exact hgap d hd) hne ht hrest hr

/-- Soundness: the scanner output is a maximal-run decomposition. -/
theorem runsAux_runsSpec (l : List Char) : RunsSpec p l (tokenRunsAux p [] l) := by
  suffices H : ∀ n l, List.length l ≤ n → RunsSpec p l (tokenRunsAux p [] l) from
    H l.length l le_rfl
  intro n
  induction n with
  | zero =>
    intro l hl
    have hnil : l = [] := List.eq_nil_of_length_eq_zero (Nat.le_zero.mp hl)
    subst hnil
    exact RunsSpec.nil [] (by simp)
  | succ n ih =>
    intro l hl
    cases l with
    | nil => exact RunsSpec.nil [] (by simp)
    | cons c cs =>
      by_cases h : p c = true
      · rw [runsAux_cons_pos p c cs h]
        have hsub : (cs.dropWhile p).length ≤ n := by
          have := length_dropWhile_le' p cs
          simp only [List.length_cons] at hl
          omega
        have hrec := ih (cs.dropWhile p) hsub
        have hdecomp : c :: cs = [] ++ (c :: cs.takeWhile p) ++ cs.dropWhile p := by
          simp [List.takeWhile_append_dropWhile]
        rw [hdecomp]
        refine RunsSpec.cons [] (c :: cs.takeWhile p) (cs.dropWhile p) _ (by simp)
          (by simp) ?_ ?_ hrec
        · intro d hd
          rcases List.mem_cons.mp hd with rfl | hd
          · exact h
          · exact List.mem_takeWhile_imp hd
        · intro d hd
          cases hcs : cs.dropWhile p with
          | nil => simp [hcs] at hd
          | cons e es =>
            rw [hcs] at hd
            have he : p e = false := by
              have := List.head?_dropWhile_not p cs
              rw [hcs] at this
              simpa using this
            have hde : e = d := by simpa using hd
            rw [← hde]
            exact he
      · have hc : p c = false := by simpa using h
        rw [runsAux_cons_neg p c cs hc]
        have hsub : cs.length ≤ n := by
          simp only [List.length_cons] at hl
          omega
        exact runsSpec_gap_cons p c hc (ih cs hsub)

/-- Completeness: any maximal-run decomposition equals the scanner
output — the decomposition is unique. -/
theorem runsSpec_unique : ∀ l ts, RunsSpec p l ts → ts = tokenRunsAux p [] l := by
  intro l ts h
  induction h with
  | nil gap hgap => rw [runsAux_gap_nil p gap hgap]
  | cons gap t rest ts hgap hne ht hrest _ ih =>
    rw [List.append_assoc, runsAux_gap p gap hgap (t ++ rest)]
    cases t with
    | nil => exact absurd rfl hne
    | cons c t' =>
      have hc : p c = true := ht c (by simp)
      have ht' : ∀ d ∈ t', p d = true := fun d hd => ht d (List.mem_cons_of_mem c hd)
      have htw := takeWhile_all p t' ht' rest hrest
      rw [List.cons_append, runsAux_cons_pos p c (t' ++ rest) hc, htw.1, htw.2, ih]

/-- Every character of every run satisfies `p` and occurs in the input. -/
theorem runsAux_mem (l : List Char) (t : List Char) (htl : t ∈ tokenRunsAux p [] l) :
    ∀ c ∈ t, p c = true ∧ c ∈ l := by
  suffices H : ∀ n l, List.length l ≤ n →
      ∀ t ∈ tokenRunsAux p [] l, ∀ c ∈ t, p c = true ∧ c ∈ l from
    H l.length l le_rfl t htl
  intro n
  induction n with
  | zero =>
    intro l hl
    have hnil : l = [] := List.eq_nil_of_length_eq_zero (Nat.le_zero.mp hl)
    subst hnil
    intro t ht
    simp [tokenRunsAux] at ht
  | succ n ih =>
    intro l hl
    cases l with
    | nil =>
      intro t ht
      simp [tokenRunsAux] at ht
    | cons c cs =>
      intro t ht d hd
      simp only [List.length_cons] at hl
      by_cases h : p c = true
      · rw [runsAux_cons_pos p c cs h] at ht
        rcases List.mem_cons.mp ht with rfl | ht
        · rcases List.mem_cons.mp hd with rfl | hd
          · exact ⟨h, by simp⟩
          · refine ⟨List.mem_takeWhile_imp hd, ?_⟩
            have : d ∈ cs := List.Sublist.mem hd (cs.takeWhile_sublist p)
            simp [this]
        · have hsub : (cs.dropWhile p).length ≤ n := by
            have := length_dropWhile_le' p cs
            omega
          have hr := ih (cs.dropWhile p) hsub t ht d hd
          refine ⟨hr.1, ?_⟩
          have : d ∈ cs := List.Sublist.mem hr.2 (cs.dropWhile_sublist p)
          simp [this]
      · rw [runsAux_cons_neg p c cs (by simpa using h)] at ht
        have hr := ih cs (by omega) t ht d hd
        exact ⟨hr.1, by simp [hr.2]⟩

end TokenRunsLemmas

/-! ## Data model

Mirrors `schemas.py` plus the MongoDB document identity (`id`).  Fields
that the code reads with `doc.get(...) or default` are `Option`-typed.
`matched_score` is a Python float, modelled as `ℚ`. -/

/-- A `profile` document (`Profile` in `schemas.py`). -/
structure ProfileDoc where
  full_name : String
  email : String
  phone : Option String
  locations : List String
  remote_ok : Bool
  target_titles : List String
  skills : List String
  min_salary_aed : Option Int
  cv_text : String
  linkedin : Option String
  website : Option String
deriving DecidableEq

/-- A `job` document as stored (`Job` in `schemas.py` plus `_id`). -/
structure StoredJob where
  id : Nat
  source : String
  source_id : Option String
  title : String
  company : Option String
  location : Option String
  url : String
  description : Option String
  posted_at : Option String
  tags : List String
  matched_score : Option ℚ
deriving DecidableEq

/-- One dictionary produced by `parse_indeed_rss` (lines 170-180 of
`main.py`): `source="indeed"`, no `source_id`, no `matched_score`,
empty `tags`; `title`, `url` and `description` are always strings. -/
structure ParsedItem where
  source : String
  source_id : Option String
  title : String
  company : Option String
  location : Option String
  url : String
  description : String
  posted_at : Option String
  tags : List String
deriving DecidableEq

/-- An `application` document (fields set by `queue_application`). -/
structure ApplicationDoc where
  job_id : Nat
  job_url : String
  job_title : String
  company : Option String
  apply_channel : String
  status : String
  notes : Option String
deriving DecidableEq

/-- The document store: the `profile`, `job` and `application`
collections, each in natural (insertion) order. -/
structure Env where
  profiles : List ProfileDoc
  jobs : List StoredJob
  applications : List ApplicationDoc
deriving DecidableEq

/-- `fastapi.HTTPException(status_code, detail)`. -/
structure HTTPException where
  status : Nat
  detail : String
deriving DecidableEq

/-! ## Feed fetch and item parser (`parse_indeed_rss`)

The HTTP client is external: a fetch either raises inside
`requests.get` (connection error / timeout), or returns a response
with a status and body.  `resp.raise_for_status()` raises exactly for
statuses 400–599. -/

/-- Outcome of `requests.get(url, timeout=15)`. -/
inductive FetchOutcome
  | netError
  | response (status : Nat) (body : String)

/-- Blocks captured by `re.findall(r"<item>(.*?)</item>", text, re.S | re.I)`:
repeatedly take the next (case-insensitive) `<item>`, capture up to the
nearest following `</item>`, and continue after it.  Fuelled; each step
consumes at least 13 characters, so `length + 1` fuel always suffices. -/
def itemBlocks : Nat → List Char → List (List Char)
  | 0, _ => []
  | fuel + 1, s =>
    match idxOfSub "<item>".data (s.map pyLowerChar) with
    | none => []
    | some i =>
      let after := s.drop (i + 6)
      match idxOfSub "</item>".data (after.map pyLowerChar) with
      | none => []
      | some j => after.take j :: itemBlocks fuel (after.drop (j + 7))

/-- Index of the first `'>'` reachable without crossing a newline — the
end of a `re.sub(r"<.*?>", "", ·)` match (`.` does not match `'\n'`
without `re.S`, and that substitution is done without flags). -/
def findCloseIdx : List Char → Option Nat
  | [] => none
  | c :: rest =>
    if c = '>' then some 0
    else if c = '\n' then none
    else (findCloseIdx rest).map (· + 1)

/-- `re.sub(r"<.*?>", "", ·)`: drop every minimal `<...>` span that does
not contain a newline. -/
def stripTags : Nat → List Char → List Char
  | 0, l => l
  | _ + 1, [] => []
  | fuel + 1, c :: rest =>
    if c = '<' then
      match findCloseIdx rest with
      | some j => stripTags fuel (rest.drop (j + 1))
      | none => c :: stripTags fuel rest
    else c :: stripTags fuel rest

/-- The helper `tag(name)` inside `parse_indeed_rss`:
`re.search(rf"<{name}>(.*?)</{name}>", block, re.S | re.I)`, then strip
nested markup and surrounding whitespace from the captured group. -/
def tagText (name : String) (block : List Char) : Option String :=
  let openTag := ('<' :: name.data ++ ['>']).map pyLowerChar
  let closeTag := ('<' :: '/' :: name.data ++ ['>']).map pyLowerChar
  match idxOfSub openTag (block.map pyLowerChar) with
  | none => none
  | some i =>
    let after := block.drop (i + openTag.length)
    match idxOfSub closeTag (after.map pyLowerChar) with
    | none => none
    | some j =>
      let captured := after.take j
      some ⟨pyStripL (stripTags (captured.length + 1) captured)⟩

/-- Lines 162-169 of `main.py`: split the raw title on `" - "`, strip
each part; with at least two parts the first is the title and the
second the company, otherwise the whole (unstripped) string is the
title and there is no company. -/
def splitTitle (title : String) : String × Option String :=
  let parts := (pySplit " - ".data title.data).map pyStripL
  match parts with
  | a :: b :: _ => (⟨a⟩, some ⟨b⟩)
  | _ => (title, none)

/-- What the claim literally says about the title split: the first and
second segments of the split, with no stripping.  Stated from the
spec's words, for comparison with `splitTitle`. -/
def splitTitleSpec (title : String) : String × Option String :=
  match pySplit " - ".data title.data with
  | a :: b :: _ => (⟨a⟩, some ⟨b⟩)
  | _ => (title, none)

/-- Lines 155-180 of `main.py`: build one provisional job record from
one `<item>` block.  `pub = tag("pubDate") or None` maps an empty
extraction to `None`. -/
def mkItemFromBlock (block : List Char) : ParsedItem :=
  let title := (tagText "title" block).getD ""
  let link := (tagText "link" block).getD ""
  let desc := (tagText "description" block).getD ""
  let pub := (tagText "pubDate" block).bind (fun s => if s = "" then none else some s)
  let tc := splitTitle title
  { source := "indeed", source_id := none, title := tc.1, company := tc.2,
    location := none, url := link, description := desc, posted_at := pub, tags := [] }

/-- The parsing part of `parse_indeed_rss`, applied to a fetched body. -/
def parseItems (body : String) : List ParsedItem :=
  (itemBlocks (body.data.length + 1) body.data).map mkItemFromBlock

/-- `parse_indeed_rss(url)`: fetch the URL; any exception from
`requests.get` or `raise_for_status` (4xx/5xx) yields `[]`, otherwise
the body is parsed. -/
def parse_indeed_rss (net : String → FetchOutcome) (url : String) : List ParsedItem :=
  match net url with
  | .netError => []
  | .response status body =>
    if 400 ≤ status ∧ status < 600 then [] else parseItems body

/-! ## Ingestion (`build_indeed_rss_urls`, `ingest_indeed`) -/

/-- `list(dict.fromkeys(urls))`: deduplicate keeping first occurrences
in order. -/
def dedupFirst : List String → List String
  | [] => []
  | x :: xs => x :: dedupFirst (xs.filter (fun y => y ≠ x))
termination_by l => l.length
decreasing_by
  have := List.length_filter_le (fun y => y ≠ x) xs
  simp only [List.length_cons]
  omega

/-- `build_indeed_rss_urls(profile)`.  `quote` is
`requests.utils.quote`, an external library function, passed in as a
parameter. -/
def build_indeed_rss_urls (quote : String → String) (profile : ProfileDoc) : List String :=
  let base := "https://ae.indeed.com/rss"
  let titles0 := profile.target_titles
  let locs := if profile.locations = [] then ["United Arab Emirates"] else profile.locations
  let titles :=
    if titles0 = [] then ["Digital Health", "Healthcare AI", "Medical Director", "Clinical"]
    else titles0
  dedupFirst (titles.flatMap (fun t => locs.map (fun l => base ++ "?q=" ++ quote t ++ "&l=" ++ quote l)))

/-- A freshly inserted job (`create_document("job", job)`): the parsed
fields plus a new identity; no `matched_score` key. -/
def newJob (nextId : Nat) (it : ParsedItem) : StoredJob :=
  { id := nextId, source := it.source, source_id := it.source_id, title := it.title,
    company := it.company, location := it.location, url := it.url,
    description := some it.description, posted_at := it.posted_at, tags := it.tags,
    matched_score := none }

/-- `db["job"].update_one({"_id": theId}, {"$set": job})` with the parsed
item as `job`: exactly the parser's keys are overwritten; `_id` and
`matched_score` are not among them. -/
def setFields (j : StoredJob) (it : ParsedItem) : StoredJob :=
  { j with
    source := it.source, source_id := it.source_id, title := it.title,
    company := it.company, location := it.location, url := it.url,
    description := some it.description, posted_at := it.posted_at, tags := it.tags }

/-- `update_one` by `_id`: rewrite the first document with that id. -/
def updateById (theId : Nat) (f : StoredJob → StoredJob) : List StoredJob → List StoredJob
  | [] => []
  | j :: rest => if j.id = theId then f j :: rest else j :: updateById theId f rest

/-- One iteration of the upsert loop in `ingest_indeed` (lines 198-204):
look the URL up with `find_one({"url": ...})`; update the found record
in place, or insert a new one.  Returns the new store, the next fresh
id, and whether an insert happened. -/
def upsertJob (store : List StoredJob) (nextId : Nat) (it : ParsedItem) :
    List StoredJob × Nat × Bool :=
  match store.find? (fun j => j.url == it.url) with
  | some existing => (updateById existing.id (fun j => setFields j it) store, nextId, false)
  | none => (store ++ [newJob nextId it], nextId + 1, true)

/-- The whole upsert loop, threading the inserted counter. -/
def ingestItems : List StoredJob → Nat → Nat → List ParsedItem → List StoredJob × Nat × Nat
  | store, nextId, inserted, [] => (store, nextId, inserted)
  | store, nextId, inserted, it :: rest =>
    let r := upsertJob store nextId it
    ingestItems r.1 r.2.1 (if r.2.2 then inserted + 1 else inserted) rest

/-- Profile resolution shared by `ingest_indeed` and `match_jobs`:
`find_one({"email": email})` when an email is given, else `find_one()`. -/
def findProfile (profiles : List ProfileDoc) (email : Option String) : Option ProfileDoc :=
  match email with
  | some e => profiles.find? (fun p => p.email == e)
  | none => profiles.head?

/-- The response body of `POST /ingest/indeed`. -/
structure IngestResult where
  sources : List String
  found : Nat
  inserted : Nat
deriving DecidableEq

/-- `ingest_indeed(email)` (the `db is not None` path): resolve the
profile (`HTTPException(400, ...)` when absent), build the feed URLs,
fetch and parse each, then upsert every item by URL. -/
def ingest_indeed (quote : String → String) (net : String → FetchOutcome) (env : Env)
    (nextId : Nat) (email : Option String) :
    Except HTTPException (IngestResult × Env × Nat) :=
  match findProfile env.profiles email with
  | none => .error ⟨400, "Profile not found. Create it first."⟩
  | some profile =>
    let urls := build_indeed_rss_urls quote profile
    let all_items := urls.flatMap (fun u => parse_indeed_rss net u)
    let r := ingestItems env.jobs nextId 0 all_items
    .ok (⟨urls, all_items.length, r.2.2⟩, { env with jobs := r.1 }, r.2.1)

/-! ## Scoring (`match_jobs`) -/

/-- Floor of a rational, computed structurally. -/
def ratFloor (q : ℚ) : ℤ :=
  q.num.fdiv q.den

/-- Round half to even, Python's rounding mode. -/
def roundHalfEven (q : ℚ) : ℤ :=
  let n := ratFloor q
  let r := q - n
  if r < 1/2 then n
  else if 1/2 < r then n + 1
  else if Even n then n else n + 1

/-- `round(x, 2)` on exact rationals. -/
def pyRound2 (q : ℚ) : ℚ :=
  (roundHalfEven (q * 100) : ℚ) / 100

/-- `set(tokenize(" ".join(profile.get("skills") or [])))`. -/
def skillTokens (p : ProfileDoc) : Finset String :=
  (tokenize (some (String.intercalate " " p.skills))).toFinset

/-- `set(tokenize(" ".join(profile.get("target_titles") or [])))`. -/
def titleTokens (p : ProfileDoc) : Finset String :=
  (tokenize (some (String.intercalate " " p.target_titles))).toFinset

/-- `set(tokenize(profile.get("cv_text", "")))`. -/
def cvTokens (p : ProfileDoc) : Finset String :=
  (tokenize (some p.cv_text)).toFinset

/-- The text scored for one job:
`" ".join([title or "", company or "", description or ""])`. -/
def jobText (j : StoredJob) : String :=
  String.intercalate " " [j.title, j.company.getD "", j.description.getD ""]

/-- `set(tokenize(text))` for the job text. -/
def jobTokens (j : StoredJob) : Finset String :=
  (tokenize (some (jobText j))).toFinset

/-- Lines 234-240 of `main.py`: the score of one job against the
profile token sets, with the `if titles:` / `if skills:` guards and the
final `round(score, 2)`. -/
def jobScore (titles skills cv : Finset String) (j : StoredJob) : ℚ :=
  let jt := jobTokens j
  let score : ℚ := 0
  let score := if titles.Nonempty then score + ((jt ∩ titles).card : ℚ) * 2.0 else score
  let score := if skills.Nonempty then score + ((jt ∩ skills).card : ℚ) * 1.5 else score
  let score := score + ((jt ∩ cv).card : ℚ) * 0.2
  pyRound2 score

/-- `x.get("matched_score", 0)`, the sort key. -/
def scoreKey (j : StoredJob) : ℚ :=
  j.matched_score.getD 0

/-- Stable descending insertion: `j` goes after every element whose key
is strictly greater, and after earlier elements with an equal key. -/
def insertScored (j : StoredJob) : List StoredJob → List StoredJob
  | [] => [j]
  | x :: xs => if scoreKey j < scoreKey x then x :: insertScored j xs else j :: x :: xs

/-- `sorted(jobs, key=lambda x: x.get("matched_score", 0), reverse=True)`
(Python's sort is stable; a stable descending sort is unique, so
insertion sort models it). -/
def sortScoredDesc : List StoredJob → List StoredJob
  | [] => []
  | x :: xs => insertScored x (sortScoredDesc xs)

/-- Lines 222-246 of `main.py` after profile resolution: compute and
persist every job's score, then return the jobs sorted by score
descending, truncated to `top_n`.  First component: the store after
the loop; second: the returned list. -/
def scoreAndRank (profile : ProfileDoc) (jobs : List StoredJob) (top_n : Nat) :
    List StoredJob × List StoredJob :=
  let skills := skillTokens profile
  let titles := titleTokens profile
  let cv := cvTokens profile
  let scored := jobs.map (fun j => { j with matched_score := some (jobScore titles skills cv j) })
  (scored, (sortScoredDesc scored).take top_n)

/-- The request body of `POST /match`. -/
structure MatchRequest where
  email : Option String
  top_n : Nat
deriving DecidableEq

/-- `match_jobs(payload)` (the `db is not None` path): resolve the
profile (`HTTPException(400, "Profile not found")` when absent), score
and persist all jobs, return the top `top_n`. -/
def match_jobs (env : Env) (payload : MatchRequest) :
    Except HTTPException (List StoredJob × Env) :=
  match findProfile env.profiles payload.email with
  | none => .error ⟨400, "Profile not found"⟩
  | some profile =>
    let r := scoreAndRank profile env.jobs payload.top_n
    .ok (r.2, { env with jobs := r.1 })

/-! ## Channel classification and application tracking -/

/-- `detect_channel(url)`. -/
def detect_channel (url : String) : String :=
  if strContains url "greenhouse.io" then "greenhouse"
  else if strContains url "jobs.lever.co" then "lever"
  else if strContains url "workable.com" then "workable"
  else if strContains url "indeed" then "indeed"
  else "other"

/-- `"queued" if channel in {"lever", "greenhouse", "workable"} else
"manual_required"`. -/
def initialStatus (channel : String) : String :=
  if channel = "lever" ∨ channel = "greenhouse" ∨ channel = "workable" then "queued"
  else "manual_required"

/-- `queue_application(payload)` (the `db is not None` path): look the
job up by id (`HTTPException(404, ...)` when absent), classify its URL,
create the application record.  Returns the new store, the created
document, and the reported channel and status. -/
def queue_application (env : Env) (job_id : Nat) :
    Except HTTPException (Env × ApplicationDoc × String × String) :=
  match env.jobs.find? (fun j => j.id == job_id) with
  | none => .error ⟨404, "Job not found"⟩
  | some job =>
    let channel := detect_channel job.url
    let status := initialStatus channel
    let app_doc : ApplicationDoc :=
      { job_id := job.id, job_url := job.url, job_title := job.title, company := job.company,
        apply_channel := channel, status := status, notes := none }
    .ok ({ env with applications := env.applications ++ [app_doc] }, app_doc, channel, status)

/-! ## Tokenizer properties (claim C5) -/

theorem toNat_ofNatAux (n : Nat) (h : n.isValidChar) : (Char.ofNatAux n h).toNat = n := rfl

theorem pyLowerChar_toNat (c : Char) :
    (pyLowerChar c).toNat =
      if 65 ≤ c.toNat ∧ c.toNat ≤ 90 then c.toNat + 32 else c.toNat := by
  by_cases h : 65 ≤ c.toNat ∧ c.toNat ≤ 90
  · rw [if_pos h]
    unfold pyLowerChar
    rw [dif_pos h]
    exact toNat_ofNatAux _ _
  · rw [if_neg h]
    unfold pyLowerChar
    rw [dif_neg h]

theorem pyLowerChar_idem (c : Char) : pyLowerChar (pyLowerChar c) = pyLowerChar c := by
  have hnot : ¬ (65 ≤ (pyLowerChar c).toNat ∧ (pyLowerChar c).toNat ≤ 90) := by
    rw [pyLowerChar_toNat]
    by_cases h : 65 ≤ c.toNat ∧ c.toNat ≤ 90
    · rw [if_pos h]
      omega
    · rw [if_neg h]
      omega
  generalize pyLowerChar c = d at hnot ⊢
  unfold pyLowerChar
  rw [dif_neg hnot]

theorem runsSpec_mem_ne (p : Char → Bool) {l : List Char} {ts : List (List Char)}
    (h : RunsSpec p l ts) : ∀ t ∈ ts, t ≠ [] := by
  induction h with
  | nil => simp
  | cons gap t rest ts hgap hne ht hrest hr ih =>
    intro u hu
    rcases List.mem_cons.mp hu with rfl | hu
    · exact hne
    · exact ih u hu

/-- Bridge: for non-empty input, the token list (as character lists) is
exactly the scanner output on the lowercased text. -/
theorem tokenize_data_eq (s : String) (hs : ¬ s = "") :
    (tokenize (some s)).map String.data = tokenRunsAux isTokChar [] (pyLower s).data := by
  simp only [tokenize, if_neg hs, List.map_map]
  have : (String.data ∘ fun cs => (⟨cs⟩ : String)) = id := funext fun cs => rfl
  rw [this, List.map_id]

/-- **C5.**  `tokenize` returns exactly the maximal runs of ASCII
letters, digits, `+`, `#`, `.` of the lowercased input, in order
(`RunsSpec` existence and uniqueness); empty or `None` input yields
`[]`; `tokenize("C++ Dev") = ["c++", "dev"]`; every token is non-empty,
consists of class characters only, and is fixed by lowercasing.
Purity/determinism is immediate: `tokenize` is a function of its
argument alone. -/
theorem tokenize_maximal_runs :
    tokenize none = [] ∧
    tokenize (some "") = [] ∧
    tokenize (some "C++ Dev") = ["c++", "dev"] ∧
    (∀ s : String, RunsSpec isTokChar (pyLower s).data ((tokenize (some s)).map String.data)) ∧
    (∀ (s : String) (ts : List (List Char)),
        RunsSpec isTokChar (pyLower s).data ts → ts = (tokenize (some s)).map String.data) ∧
    (∀ (s t : String), t ∈ tokenize (some s) →
        t ≠ "" ∧ (∀ c ∈ t.data, isTokChar c = true) ∧ pyLower t = t) := by
  refine ⟨rfl, rfl, by decide, ?_, ?_, ?_⟩
  · intro s
    by_cases hs : s = ""
    · subst hs
      exact RunsSpec.nil [] (by simp)
    · rw [tokenize_data_eq s hs]
      exact runsAux_runsSpec isTokChar (pyLower s).data
  · intro s ts h
    by_cases hs : s = ""
    · subst hs
      have : ts = tokenRunsAux isTokChar [] (pyLower "").data :=
        runsSpec_unique isTokChar _ ts h
      simpa [tokenize] using this
    · rw [tokenize_data_eq s hs]
      exact runsSpec_unique isTokChar _ ts h
  · intro s t ht
    by_cases hs : s = ""
    · subst hs
      simp [tokenize] at ht
    · simp only [tokenize, if_neg hs, List.mem_map] at ht
      obtain ⟨cs, hcs, rfl⟩ := ht
      have hmem := runsAux_mem isTokChar (pyLower s).data cs hcs
      have hne : cs ≠ [] := by
        have hspec := runsAux_runsSpec isTokChar (pyLower s).data
        exact runsSpec_mem_ne isTokChar hspec cs hcs
      refine ⟨?_, ?_, ?_⟩
      · intro hcon
        exact hne (congrArg String.data hcon)
      · intro c hc
        exact (hmem c hc).1
      · show (⟨cs.map pyLowerChar⟩ : String) = (⟨cs⟩ : String)
        congr 1
        have hfix : ∀ c ∈ cs, pyLowerChar c = c := by
          intro c hc
          have : c ∈ s.data.map pyLowerChar := (hmem c hc).2
          obtain ⟨c0, _, rfl⟩ := List.mem_map.mp this
          exact pyLowerChar_idem c0
        calc cs.map pyLowerChar = cs.map id := List.map_congr_left hfix
          _ = cs := List.map_id cs

/-- Concrete instantiation of `tokenize_maximal_runs`: the decomposition
witnessed and uniqueness applied on `"Ab c"`, and the token facts on the
token `"ab"` it contains. -/
theorem tokenize_maximal_runs_witness :
    RunsSpec isTokChar (pyLower "Ab c").data [['a', 'b'], ['c']] ∧
    [['a', 'b'], ['c']] = (tokenize (some "Ab c")).map String.data ∧
    ("ab" ≠ "" ∧ (∀ c ∈ "ab".data, isTokChar c = true) ∧ pyLower "ab" = "ab") := by
  have hruns := tokenize_maximal_runs.2.2.2.1 "Ab c"
  have hdata : (tokenize (some "Ab c")).map String.data = [['a', 'b'], ['c']] := by decide
  rw [hdata] at hruns
  exact ⟨hruns, tokenize_maximal_runs.2.2.2.2.1 "Ab c" [['a', 'b'], ['c']] hruns,
    tokenize_maximal_runs.2.2.2.2.2 "Ab c" "ab" (by decide)⟩

/-! ## Scoring properties (claims C1, C9, C8) -/

/-- **C1.**  The score `match_jobs` computes for every stored job is
`round2(2.0·|jt ∩ titles| + 1.5·|jt ∩ skills| + 0.2·|jt ∩ cv|)`: the
`if titles:` / `if skills:` guards in the code equal adding the
(weighted) intersection size unconditionally, because an empty
profile-side set makes the intersection empty and the term zero.  The
second conjunct ties the formula to the scores the match operation
writes for an arbitrary resolved profile. -/
theorem match_score_formula :
    (∀ (titles skills cv : Finset String) (j : StoredJob),
      jobScore titles skills cv j =
        pyRound2 (2.0 * ((jobTokens j ∩ titles).card : ℚ)
          + 1.5 * ((jobTokens j ∩ skills).card : ℚ)
          + 0.2 * ((jobTokens j ∩ cv).card : ℚ))) ∧
    (∀ (p : ProfileDoc) (jobs : List StoredJob) (n : Nat),
      ((scoreAndRank p jobs n).1).map (fun j => j.matched_score) =
        jobs.map (fun j =>
          some (jobScore (titleTokens p) (skillTokens p) (cvTokens p) j))) := by
  constructor
  · intro titles skills cv j
    simp only [jobScore]
    congr 1
    by_cases h1 : titles.Nonempty
    · by_cases h2 : skills.Nonempty
      · rw [if_pos h1, if_pos h2]
        ring
      · rw [if_pos h1, if_neg h2, Finset.not_nonempty_iff_eq_empty.mp h2]
        simp only [Finset.inter_empty, Finset.card_empty, Nat.cast_zero]
        ring
    · by_cases h2 : skills.Nonempty
      · rw [if_neg h1, if_pos h2, Finset.not_nonempty_iff_eq_empty.mp h1]
        simp only [Finset.inter_empty, Finset.card_empty, Nat.cast_zero]
        ring
      · rw [if_neg h1, if_neg h2, Finset.not_nonempty_iff_eq_empty.mp h1,
          Finset.not_nonempty_iff_eq_empty.mp h2]
        simp only [Finset.inter_empty, Finset.card_empty, Nat.cast_zero]
        ring
  · intro p jobs n
    simp only [scoreAndRank, List.map_map]
    rfl

/-- **C9.**  Every invocation of the match operation persists a
`matched_score` onto every stored job — the post-loop store is exactly
the input store with every job's score overwritten — independently of
`top_n`; and with `top_n = 0` the returned list is empty while the
store is still fully rewritten (first conjunct applied at `n = 0`). -/
theorem match_persists_every_score :
    (∀ (p : ProfileDoc) (jobs : List StoredJob) (n : Nat),
      (scoreAndRank p jobs n).1 =
        jobs.map (fun j =>
          { j with
            matched_score :=
              some (jobScore (titleTokens p) (skillTokens p) (cvTokens p) j) })) ∧
    (∀ (p : ProfileDoc) (jobs : List StoredJob), (scoreAndRank p jobs 0).2 = []) := by
  refine ⟨fun p jobs n => rfl, fun p jobs => ?_⟩
  simp only [scoreAndRank]
  exact List.take_zero _

/-- **C8.**  For a fixed profile and a fixed stored job set the match
operation is deterministic and idempotent: running it a second time on
the store the first run produced writes exactly the same scores and
returns exactly the same ranked list (the whole result pair is
unchanged).  Scores do not depend on `matched_score`, which is the only
field a run modifies. -/
theorem match_jobs_idempotent (p : ProfileDoc) (jobs : List StoredJob) (n : Nat) :
    scoreAndRank p (scoreAndRank p jobs n).1 n = scoreAndRank p jobs n := by
  simp only [scoreAndRank, List.map_map]
  have hcomp :
      ((fun j : StoredJob =>
          { j with
            matched_score :=
              some (jobScore (titleTokens p) (skillTokens p) (cvTokens p) j) }) ∘
        (fun j : StoredJob =>
          { j with
            matched_score :=
              some (jobScore (titleTokens p) (skillTokens p) (cvTokens p) j) })) =
      (fun j : StoredJob =>
        { j with
          matched_score :=
            some (jobScore (titleTokens p) (skillTokens p) (cvTokens p) j) }) :=
    funext fun j => rfl
  rw [hcomp]

/-! ## Channel classification properties (claims C4, C10) -/

theorem detect_channel_cases (url : String) :
    detect_channel url = "greenhouse" ∨ detect_channel url = "lever" ∨
    detect_channel url = "workable" ∨ detect_channel url = "indeed" ∨
    detect_channel url = "other" := by
  unfold detect_channel
  split_ifs <;> simp

theorem status_queued_iff (url : String) :
    initialStatus (detect_channel url) = "queued" ↔
      (detect_channel url = "lever" ∨ detect_channel url = "greenhouse" ∨
        detect_channel url = "workable") := by
  rcases detect_channel_cases url with h | h | h | h | h <;> rw [h] <;> decide

theorem status_manual_iff (url : String) :
    initialStatus (detect_channel url) = "manual_required" ↔
      (detect_channel url = "indeed" ∨ detect_channel url = "other") := by
  rcases detect_channel_cases url with h | h | h | h | h <;> rw [h] <;> decide

/-- **C4.**  `detect_channel` assigns the channel by the first matching
substring in the fixed order greenhouse.io → jobs.lever.co →
workable.com → indeed → other, and the application created by
`queue_application` is `queued` exactly for lever/greenhouse/workable
and `manual_required` exactly for indeed/other. -/
theorem detect_channel_order_and_status (url : String) :
    (strContains url "greenhouse.io" = true → detect_channel url = "greenhouse") ∧
    (strContains url "greenhouse.io" = false → strContains url "jobs.lever.co" = true →
      detect_channel url = "lever") ∧
    (strContains url "greenhouse.io" = false → strContains url "jobs.lever.co" = false →
      strContains url "workable.com" = true → detect_channel url = "workable") ∧
    (strContains url "greenhouse.io" = false → strContains url "jobs.lever.co" = false →
      strContains url "workable.com" = false → strContains url "indeed" = true →
      detect_channel url = "indeed") ∧
    (strContains url "greenhouse.io" = false → strContains url "jobs.lever.co" = false →
      strContains url "workable.com" = false → strContains url "indeed" = false →
      detect_channel url = "other") ∧
    (initialStatus (detect_channel url) = "queued" ↔
      (detect_channel url = "lever" ∨ detect_channel url = "greenhouse" ∨
        detect_channel url = "workable")) ∧
    (initialStatus (detect_channel url) = "manual_required" ↔
      (detect_channel url = "indeed" ∨ detect_channel url = "other")) ∧
    (∀ (env : Env) (job_id : Nat) (env2 : Env) (app : ApplicationDoc) (ch st : String),
      queue_application env job_id = .ok (env2, app, ch, st) →
      app.apply_channel = ch ∧ app.status = st ∧ st = initialStatus ch ∧
      (app.status = "queued" ↔
        (app.apply_channel = "lever" ∨ app.apply_channel = "greenhouse" ∨
          app.apply_channel = "workable")) ∧
      (app.status = "manual_required" ↔
        (app.apply_channel = "indeed" ∨ app.apply_channel = "other"))) := by
  refine ⟨?_, ?_, ?_, ?_, ?_, status_queued_iff url, status_manual_iff url, ?_⟩
  · intro h1
    simp [detect_channel, h1]
  · intro h1 h2
    simp [detect_channel, h1, h2]
  · intro h1 h2 h3
    simp [detect_channel, h1, h2, h3]
  · intro h1 h2 h3 h4
    simp [detect_channel, h1, h2, h3, h4]
  · intro h1 h2 h3 h4
    simp [detect_channel, h1, h2, h3, h4]
  · intro env job_id env2 app ch st hok
    unfold queue_application at hok
    cases hfind : env.jobs.find? (fun j => j.id == job_id) with
    | none =>
      rw [hfind] at hok
      simp at hok
    | some job =>
      rw [hfind] at hok
      simp only [Except.ok.injEq, Prod.mk.injEq] at hok
      obtain ⟨-, happ, hch, hst⟩ := hok
      subst happ
      subst hch
      subst hst
      refine ⟨rfl, rfl, rfl, ?_, ?_⟩
      · exact status_queued_iff job.url
      · exact status_manual_iff job.url

/-- Concrete instantiation of `detect_channel_order_and_status`: a
Lever URL classifies as lever, an Indeed URL as indeed with status
`manual_required`, and a concrete `queue_application` run creates an
application whose status matches its channel. -/
theorem detect_channel_order_and_status_witness :
    detect_channel "https://jobs.lever.co/acme/123" = "lever" ∧
    detect_channel "https://ae.indeed.com/viewjob?jk=1" = "indeed" ∧
    initialStatus (detect_channel "https://ae.indeed.com/viewjob?jk=1") = "manual_required" ∧
    ("queued" = "queued" ↔
      ("lever" = "lever" ∨ "lever" = "greenhouse" ∨ "lever" = "workable")) := by
  have h1 := (detect_channel_order_and_status "https://jobs.lever.co/acme/123").2.1
    (by decide) (by decide)
  have h2 := (detect_channel_order_and_status "https://ae.indeed.com/viewjob?jk=1").2.2.2.1
    (by decide) (by decide) (by decide) (by decide)
  have h3 := (detect_channel_order_and_status "https://ae.indeed.com/viewjob?jk=1").2.2.2.2.2.2.1
  refine ⟨h1, h2, h3.mpr (Or.inl h2), by decide⟩

/-- **C10.**  A stored job whose URL is empty (or absent, which
`job.get("url", "")` also turns into `""`) still lets the apply
operation succeed: no substring matches, so the application is created
with channel `other` and status `manual_required` and no error is
raised. -/
theorem empty_url_apply_succeeds (env : Env) (job_id : Nat) (job : StoredJob)
    (hfind : env.jobs.find? (fun j => j.id == job_id) = some job)
    (hurl : job.url = "") :
    queue_application env job_id =
      .ok ({ env with applications := env.applications ++
          [⟨job.id, job.url, job.title, job.company, "other", "manual_required", none⟩] },
        ⟨job.id, job.url, job.title, job.company, "other", "manual_required", none⟩,
        "other", "manual_required") := by
  unfold queue_application
  rw [hfind]
  have hch : detect_channel job.url = "other" := by
    rw [hurl]
    decide
  have hst : initialStatus (detect_channel job.url) = "manual_required" := by
    rw [hch]
    decide
  rw [hch] at hst
  simp only [hch, hst]

/-- Concrete instantiation of `empty_url_apply_succeeds` on a
one-job store whose job has an empty URL. -/
theorem empty_url_apply_succeeds_witness :
    queue_application
        ⟨[], [⟨5, "indeed", none, "T", none, none, "", none, none, [], none⟩], []⟩ 5 =
      .ok (⟨[], [⟨5, "indeed", none, "T", none, none, "", none, none, [], none⟩],
          [⟨5, "", "T", none, "other", "manual_required", none⟩]⟩,
        ⟨5, "", "T", none, "other", "manual_required", none⟩,
        "other", "manual_required") :=
  empty_url_apply_succeeds
    ⟨[], [⟨5, "indeed", none, "T", none, none, "", none, none, [], none⟩], []⟩ 5
    ⟨5, "indeed", none, "T", none, none, "", none, none, [], none⟩ (by decide) rfl

/-! ## Upsert / dedup properties (claim C3) -/

/-- At most one stored job per URL (the spec's dedup invariant). -/
def urlUnique (store : List StoredJob) : Prop :=
  store.Pairwise (fun a b => a.url ≠ b.url)

/-- Distinct document identities (every store built by insertion with
fresh ids satisfies this). -/
def idUnique (store : List StoredJob) : Prop :=
  store.Pairwise (fun a b => a.id ≠ b.id)

theorem eq_of_mem_idUnique {store : List StoredJob} {j e : StoredJob}
    (hid : idUnique store) (hj : j ∈ store) (he : e ∈ store) (h : j.id = e.id) : j = e := by
  induction store with
  | nil => simp at hj
  | cons x rest ih =>
    have hx : ∀ k ∈ rest, x.id ≠ k.id := (List.pairwise_cons.mp hid).1
    have hrest : idUnique rest := (List.pairwise_cons.mp hid).2
    rcases List.mem_cons.mp hj with rfl | hj2
    · rcases List.mem_cons.mp he with rfl | he2
      · rfl
      · exact absurd h (hx e he2)
    · rcases List.mem_cons.mp he with rfl | he2
      · exact absurd h.symm (hx j hj2)
      · exact ih hrest hj2 he2

theorem updateById_eq_map {store : List StoredJob} (theId : Nat) (f : StoredJob → StoredJob)
    (hid : idUnique store) :
    updateById theId f store = store.map (fun j => if j.id = theId then f j else j) := by
  induction store with
  | nil => rfl
  | cons x rest ih =>
    have hx : ∀ k ∈ rest, x.id ≠ k.id := (List.pairwise_cons.mp hid).1
    have hrest : idUnique rest := (List.pairwise_cons.mp hid).2
    by_cases h : x.id = theId
    · have hmap : rest.map (fun j => if j.id = theId then f j else j) = rest := by
        have : ∀ j ∈ rest, (if j.id = theId then f j else j) = j := by
          intro j hj
          rw [if_neg]
          intro hc
          exact hx j hj (by rw [h, ← hc])
        calc rest.map (fun j => if j.id = theId then f j else j) = rest.map id :=
              List.map_congr_left this
          _ = rest := List.map_id rest
      simp [updateById, h, hmap]
    · simp [updateById, h, ih hrest]

theorem updateById_append_of_fresh {l1 l2 : List StoredJob} (theId : Nat)
    (f : StoredJob → StoredJob) (h : ∀ j ∈ l1, j.id ≠ theId) :
    updateById theId f (l1 ++ l2) = l1 ++ updateById theId f l2 := by
  induction l1 with
  | nil => rfl
  | cons x rest ih =>
    have hx : x.id ≠ theId := h x (by simp)
    have hrest : ∀ j ∈ rest, j.id ≠ theId := fun j hj => h j (List.mem_cons_of_mem x hj)
    simp [updateById, hx, ih hrest]

theorem find?_url_some {store : List StoredJob} {u : String} {e : StoredJob}
    (h : store.find? (fun j => j.url == u) = some e) : e ∈ store ∧ e.url = u := by
  refine ⟨List.mem_of_find?_eq_some h, ?_⟩
  have := List.find?_some h
  simpa using this

/-- **C3.**  URL is the dedup key.
(i) Upserting an item whose URL is already stored updates that record
in place: nothing is counted as inserted, the store keeps its length,
exactly the record with the found document's identity is overwritten,
and the overwrite preserves `_id` and `matched_score` while setting the
parsed fields (in particular the new description).
(ii) Upserting preserves the at-most-one-job-per-URL invariant.
(iii) Ingesting the same URL twice (insert, then same-URL update)
counts one insert then one update, and leaves exactly one job with that
URL, carrying the first insert's identity, the second item's
description, and no `matched_score`. -/
theorem url_dedup_upsert :
    (∀ (store : List StoredJob) (nextId : Nat) (it : ParsedItem) (e : StoredJob),
      idUnique store → store.find? (fun j => j.url == it.url) = some e →
      upsertJob store nextId it =
        (store.map (fun j => if j.id = e.id then setFields j it else j), nextId, false) ∧
      (upsertJob store nextId it).1.length = store.length ∧
      setFields e it ∈ (upsertJob store nextId it).1 ∧
      (setFields e it).id = e.id ∧
      (setFields e it).matched_score = e.matched_score ∧
      (setFields e it).description = some it.description ∧
      (setFields e it).url = e.url ∧
      (∀ j ∈ store, j.id ≠ e.id → j ∈ (upsertJob store nextId it).1)) ∧
    (∀ (store : List StoredJob) (nextId : Nat) (it : ParsedItem),
      idUnique store → urlUnique store → urlUnique (upsertJob store nextId it).1) ∧
    (∀ (store : List StoredJob) (nextId : Nat) (it1 it2 : ParsedItem),
      idUnique store → (∀ j ∈ store, j.id ≠ nextId) →
      store.find? (fun j => j.url == it1.url) = none → it1.url = it2.url →
      (upsertJob store nextId it1).2.2 = true ∧
      (upsertJob (upsertJob store nextId it1).1 (upsertJob store nextId it1).2.1 it2).2.2
        = false ∧
      ((upsertJob (upsertJob store nextId it1).1 (upsertJob store nextId it1).2.1 it2).1.filter
          (fun j => j.url == it2.url)).map (fun j => (j.id, j.description, j.matched_score)) =
        [(nextId, some it2.description, none)]) := by
  refine ⟨?_, ?_, ?_⟩
  · intro store nextId it e hid hfind
    obtain ⟨hmem, heu⟩ := find?_url_some hfind
    have hup : upsertJob store nextId it =
        (store.map (fun j => if j.id = e.id then setFields j it else j), nextId, false) := by
      simp [upsertJob, hfind, updateById_eq_map e.id (fun j => setFields j it) hid]
    refine ⟨hup, ?_, ?_, rfl, rfl, rfl, ?_, ?_⟩
    · rw [hup]
      simp
    · rw [hup]
      have : (if e.id = e.id then setFields e it else e) = setFields e it := if_pos rfl
      exact this ▸ List.mem_map_of_mem (fun j => if j.id = e.id then setFields j it else j) hmem
    · show it.url = e.url
      exact heu.symm
    · intro j hj hne
      rw [hup]
      have : (if j.id = e.id then setFields j it else j) = j := if_neg hne
      exact this ▸ List.mem_map_of_mem _ hj
  · intro store nextId it hid hurl
    unfold upsertJob
    cases hfind : store.find? (fun j => j.url == it.url) with
    | some e =>
      obtain ⟨hmem, heu⟩ := find?_url_some hfind
      simp only
      rw [updateById_eq_map e.id (fun j => setFields j it) hid]
      rw [urlUnique, List.pairwise_map]
      refine hurl.imp_of_mem ?_
      intro a b ha hb hne
      have hpres : ∀ j ∈ store, (if j.id = e.id then setFields j it else j).url = j.url := by
        intro j hj
        by_cases hje : j.id = e.id
        · have : j = e := eq_of_mem_idUnique hid hj hmem hje
          subst this
          rw [if_pos hje]
          show it.url = j.url
          exact heu.symm
        · rw [if_neg hje]
      rw [hpres a ha, hpres b hb]
      exact hne
    | none =>
      simp only
      rw [urlUnique, List.pairwise_append]
      refine ⟨hurl, by simp, ?_⟩
      intro a ha b hb
      have : ∀ x ∈ store, ¬(x.url == it.url) = true := List.find?_eq_none.mp hfind
      have hau : ¬ a.url = it.url := by simpa using this a ha
      have hb' : b = newJob nextId it := by simpa using hb
      subst hb'
      exact hau
  · intro store nextId it1 it2 hid hfresh hnone hurl12
    have h1 : upsertJob store nextId it1 = (store ++ [newJob nextId it1], nextId + 1, true) := by
      simp [upsertJob, hnone]
    have hnone2 : store.find? (fun j => j.url == it2.url) = none := by
      rw [← hurl12]
      exact hnone
    have hfind2 : (store ++ [newJob nextId it1]).find? (fun j => j.url == it2.url) =
        some (newJob nextId it1) := by
      rw [List.find?_append, hnone2]
      simp [newJob, hurl12]
    have h2 : upsertJob (store ++ [newJob nextId it1]) (nextId + 1) it2 =
        (store ++ [setFields (newJob nextId it1) it2], nextId + 1, false) := by
      simp only [upsertJob, hfind2]
      rw [show (newJob nextId it1).id = nextId from rfl,
        updateById_append_of_fresh nextId _ hfresh]
      simp [updateById, newJob]
    refine ⟨by rw [h1], ?_, ?_⟩
    · rw [h1]
      simp only
      rw [h2]
    · rw [h1]
      simp only
      rw [h2]
      simp only
      rw [List.filter_append]
      have hstore : store.filter (fun j => j.url == it2.url) = [] := by
        rw [List.filter_eq_nil_iff]
        intro a ha
        simpa using List.find?_eq_none.mp hnone2 a ha
      have hkeep : ((setFields (newJob nextId it1) it2).url == it2.url) = true := by
        simp [setFields, newJob]
      rw [hstore]
      simp only [List.nil_append, List.filter_cons, hkeep, if_pos, List.filter_nil,
        List.map_cons, List.map_nil]
      rfl

/-- Concrete instantiation of `url_dedup_upsert` (iii): inserting then
re-ingesting the same URL with a different description leaves exactly
one job with that URL, holding the second description, the original
identity and no score. -/
theorem url_dedup_upsert_witness :
    ((upsertJob
        (upsertJob [] 0 ⟨"indeed", none, "T", none, none, "http://j", "d1", none, []⟩).1
        (upsertJob [] 0 ⟨"indeed", none, "T", none, none, "http://j", "d1", none, []⟩).2.1
        ⟨"indeed", none, "T", none, none, "http://j", "d2", none, []⟩).1.filter
        (fun j => j.url == "http://j")).map (fun j => (j.id, j.description, j.matched_score)) =
      [(0, some "d2", none)] := by
  have h := url_dedup_upsert.2.2 [] 0
    ⟨"indeed", none, "T", none, none, "http://j", "d1", none, []⟩
    ⟨"indeed", none, "T", none, none, "http://j", "d2", none, []⟩
    (by constructor) (by simp) (by decide) rfl
  exact h.2.2

/-! ## Feed fetch error handling (claim C6)

`resp.raise_for_status()` raises only for statuses 400–599, so a final
response with a 1xx/3xx status (e.g. a redirect that was not followed)
is *not* absorbed: its body is parsed.  The claim's "any non-2xx
status" is therefore too strong; the counterexample below exhibits a
301 response whose body contributes a non-empty item list. -/

/-- A feed body holding one `<item>` block. -/
def rssItemBody : String :=
  "<item><title>T - C</title><link>u</link><description>d</description></item>"

/-- **C6, counterexample.**  A 301 status is not 2xx, yet the fetch is
not absorbed into an empty result: the body's item is parsed. -/
theorem fetch_non2xx_counterexample :
    parse_indeed_rss (fun _ => FetchOutcome.response 301 rssItemBody) "u" ≠ [] ∧
    ¬ (200 ≤ 301 ∧ 301 ≤ 299) := by
  constructor
  · decide
  · omega

/-- **C6, amended.**  A network error or timeout, or a 4xx/5xx status
(the statuses `raise_for_status` raises for), makes the URL contribute
an empty item list; the failure is absorbed, never propagated — and a
successful fetch of a feed with zero matching items gives the same
empty contribution, so such a failure is indistinguishable from an
empty feed. -/
theorem fetch_failure_absorbed :
    (∀ (net : String → FetchOutcome) (url : String),
      net url = .netError → parse_indeed_rss net url = []) ∧
    (∀ (net : String → FetchOutcome) (url : String) (s : Nat) (b : String),
      net url = .response s b → 400 ≤ s → s < 600 → parse_indeed_rss net url = []) ∧
    (∀ (net : String → FetchOutcome) (url : String) (s : Nat) (b : String),
      net url = .response s b → parseItems b = [] → parse_indeed_rss net url = []) := by
  refine ⟨?_, ?_, ?_⟩
  · intro net url h
    simp [parse_indeed_rss, h]
  · intro net url st b h h4 h6
    simp [parse_indeed_rss, h, h4, h6]
  · intro net url st b h hb
    simp only [parse_indeed_rss, h]
    split
    · rfl
    · exact hb

/-- Concrete instantiation of `fetch_failure_absorbed`: a connection
error, a 404 response, and a 200 response whose body has no `<item>`
blocks all contribute the same empty item list. -/
theorem fetch_failure_absorbed_witness :
    parse_indeed_rss (fun _ => FetchOutcome.netError) "u" = [] ∧
    parse_indeed_rss (fun _ => FetchOutcome.response 404 rssItemBody) "u" = [] ∧
    parse_indeed_rss (fun _ => FetchOutcome.response 200 "<rss></rss>") "u" = [] := by
  refine ⟨?_, ?_, ?_⟩
  · exact fetch_failure_absorbed.1 (fun _ => FetchOutcome.netError) "u" rfl
  · exact fetch_failure_absorbed.2.1 (fun _ => FetchOutcome.response 404 rssItemBody) "u"
      404 rssItemBody rfl (by omega) (by omega)
  · exact fetch_failure_absorbed.2.2 (fun _ => FetchOutcome.response 200 "<rss></rss>") "u"
      200 "<rss></rss>" rfl (by decide)

/-! ## Title split (claim C7)

The code strips each hyphen-separated part
(`parts = [p.strip() for p in title.split(" - ")]`), so the stored
title/company are the *stripped* first and second segments, not the raw
segments the claim describes.  They differ as soon as a segment carries
extra whitespace, e.g. `"A -  B"`. -/

/-- **C7, counterexample.**  `"A -  B".split(" - ")` has second segment
`" B"`, but the code stores company `"B"`: the record's company is not
the second segment. -/
theorem title_split_counterexample :
    splitTitle "A -  B" = ("A", some "B") ∧
    splitTitleSpec "A -  B" = ("A", some " B") ∧
    splitTitle "A -  B" ≠ splitTitleSpec "A -  B" := by
  refine ⟨by decide, by decide, by decide⟩

/-- **C7, amended.**  If splitting the title on `" - "` yields at least
two segments, the record's title is the first segment and its company
the second, each stripped of surrounding whitespace; otherwise the
whole (unstripped) string is the title and company is unset.
`"Nurse - Acme Health - Dubai"` parses to title `"Nurse"`, company
`"Acme Health"`.  The last conjunct ties the split to the parser's
output record. -/
theorem title_split_amended :
    (∀ (t : String) (a b : List Char) (rest : List (List Char)),
      pySplit " - ".data t.data = a :: b :: rest →
      splitTitle t = (⟨pyStripL a⟩, some ⟨pyStripL b⟩)) ∧
    (∀ (t : String) (a : List Char),
      pySplit " - ".data t.data = [a] → splitTitle t = (t, none)) ∧
    splitTitle "Nurse - Acme Health - Dubai" = ("Nurse", some "Acme Health") ∧
    (∀ block : List Char,
      (mkItemFromBlock block).title = (splitTitle ((tagText "title" block).getD "")).1 ∧
      (mkItemFromBlock block).company = (splitTitle ((tagText "title" block).getD "")).2) := by
  refine ⟨?_, ?_, by decide, fun block => ⟨rfl, rfl⟩⟩
  · intro t a b rest h
    simp [splitTitle, h]
  · intro t a h
    simp [splitTitle, h]

/-- Concrete instantiation of `title_split_amended` on a three-segment
title and a one-segment title. -/
theorem title_split_amended_witness :
    splitTitle "Nurse - Acme Health - Dubai" = ("Nurse", some "Acme Health") ∧
    splitTitle "Solo Title" = ("Solo Title", none) := by
  constructor
  · have h := title_split_amended.1 "Nurse - Acme Health - Dubai"
      "Nurse".data "Acme Health".data ["Dubai".data] (by decide)
    rw [h]
    decide
  · exact title_split_amended.2.1 "Solo Title" "Solo Title".data (by decide)

/-! ## Profile-missing error status (claim C2)

Both `ingest_indeed` and `match_jobs` surface the missing-profile
failure to the caller, but they raise `HTTPException(400, ...)` — the
transport maps it to HTTP 400, not 404.  The same condition in
`get_profile` (and the missing-job case in `queue_application`) raises
404, and the spec's own error taxonomy says NotFound → 404, so the 400
here contradicts the code's own convention: a code bug rather than a
spec error. -/

/-- A stored profile used to exhibit the email-mismatch case. -/
def sampleProfile : ProfileDoc :=
  ⟨"Jane Doe", "user@example.com", none, [], true, [], [], none, "", none, none⟩

/-- **C2.**  With no profile stored (or an email matching no profile),
ingestion and match both fail — surfaced, not absorbed — but with
status 400, not the 404 the claim requires. -/
theorem profile_missing_http_400 :
    (∀ (quote : String → String) (net : String → FetchOutcome) (jobs : List StoredJob)
        (apps : List ApplicationDoc) (nextId : Nat) (email : Option String),
      ingest_indeed quote net ⟨[], jobs, apps⟩ nextId email =
        .error ⟨400, "Profile not found. Create it first."⟩) ∧
    (∀ (jobs : List StoredJob) (apps : List ApplicationDoc) (payload : MatchRequest),
      match_jobs ⟨[], jobs, apps⟩ payload = .error ⟨400, "Profile not found"⟩) ∧
    (∀ (jobs : List StoredJob) (apps : List ApplicationDoc) (n : Nat),
      match_jobs ⟨[sampleProfile], jobs, apps⟩ ⟨some "nobody@example.com", n⟩ =
        .error ⟨400, "Profile not found"⟩) ∧
    (400 : Nat) ≠ 404 := by
  refine ⟨?_, ?_, ?_, by omega⟩
  · intro quote net jobs apps nextId email
    cases email with
    | none => rfl
    | some e => rfl
  · intro jobs apps payload
    cases payload with
    | mk email n =>
      cases email with
      | none => rfl
      | some e => rfl
  · intro jobs apps n
    rfl
